import Mathlib

set_option maxRecDepth 100000

/-!
Verification of the Scoreboard Synchronization Engine of
`sadroad/LoL-SoloQ-Leaderboard` (`src/main.rs`), as a shallow embedding.

The repository is a Discord bot: a scheduled task and two slash commands
maintain a single leaderboard message.  The embedding below translates the
functions `compare`, `update_scoreboard`, `launch_scoreboard`, the
`MessageCreate` arm of `handle_event`, and the scheduler loop body of `main`
into pure Lean functions.  Outbound network calls are recorded in a trace of
`Call` values; a Rust panic (an `unwrap` of `None`) is modelled as an
explicit error constructor, so every "panicking" path is visible as a value.
-/

/-- Three-way comparison on `Nat`, the semantics of Rust's `Ord::cmp` on
unsigned integers (used by riven's `Tier`/`Division` `Ord` instances). -/
def cmpNat (a b : Nat) : Ordering :=
  if a < b then .lt else if b < a then .gt else .eq

/-- Three-way comparison on `Int`, the semantics of Rust's `Ord::cmp` on
`i32` (the type of `league_points`). -/
def cmpInt (a b : Int) : Ordering :=
  if a < b then .lt else if b < a then .gt else .eq

theorem cmpNat_eq_lt {a b : Nat} : cmpNat a b = .lt ↔ a < b := by
  unfold cmpNat; split <;> rename_i h
  · simp [h]
  · split <;> rename_i h2 <;> simp <;> omega

theorem cmpNat_eq_gt {a b : Nat} : cmpNat a b = .gt ↔ b < a := by
  unfold cmpNat; split <;> rename_i h
  · simp; omega
  · split <;> rename_i h2 <;> simp <;> omega

theorem cmpNat_eq_eq {a b : Nat} : cmpNat a b = .eq ↔ a = b := by
  unfold cmpNat; split <;> rename_i h
  · simp; omega
  · split <;> rename_i h2 <;> simp <;> omega

theorem cmpInt_eq_lt {a b : Int} : cmpInt a b = .lt ↔ a < b := by
  unfold cmpInt; split <;> rename_i h
  · simp [h]
  · split <;> rename_i h2 <;> simp <;> omega

theorem cmpInt_eq_gt {a b : Int} : cmpInt a b = .gt ↔ b < a := by
  unfold cmpInt; split <;> rename_i h
  · simp; omega
  · split <;> rename_i h2 <;> simp <;> omega

theorem cmpInt_eq_eq {a b : Int} : cmpInt a b = .eq ↔ a = b := by
  unfold cmpInt; split <;> rename_i h
  · simp; omega
  · split <;> rename_i h2 <;> simp <;> omega

/-- The ranked tiers of the riven crate (`riven::consts::Tier`), as consumed
by `main.rs`.  In riven the enum has a `u8` representation and `Ord` compares
those numeric values, so `CHALLENGER` is greatest and `UNRANKED` least. -/
inductive Tier where
  | CHALLENGER | GRANDMASTER | MASTER | DIAMOND | EMERALD
  | PLATINUM | GOLD | SILVER | BRONZE | IRON | UNRANKED
deriving DecidableEq, Repr, Inhabited

/-- Ordering key of each tier, matching riven's `Ord for Tier` (which
compares the enum's `u8` representation): `UNRANKED` lowest, then `IRON`
up to `CHALLENGER`; only the relative order matters below. -/
def Tier.value : Tier → Nat
  | .CHALLENGER => 220
  | .GRANDMASTER => 200
  | .MASTER => 180
  | .DIAMOND => 160
  | .EMERALD => 150
  | .PLATINUM => 140
  | .GOLD => 120
  | .SILVER => 100
  | .BRONZE => 80
  | .IRON => 60
  | .UNRANKED => 0

/-- riven's `Ord for Tier`: compare the `u8` discriminants. -/
def Tier.cmp (a b : Tier) : Ordering := cmpNat a.value b.value

/-- riven's `Tier::is_ranked`: every tier except `UNRANKED`. -/
def Tier.isRanked (t : Tier) : Bool := t != Tier.UNRANKED

/-- Display form of a tier (riven's `Display`, the variant name). -/
def Tier.toDisplay : Tier → String
  | .CHALLENGER => "CHALLENGER"
  | .GRANDMASTER => "GRANDMASTER"
  | .MASTER => "MASTER"
  | .DIAMOND => "DIAMOND"
  | .EMERALD => "EMERALD"
  | .PLATINUM => "PLATINUM"
  | .GOLD => "GOLD"
  | .SILVER => "SILVER"
  | .BRONZE => "BRONZE"
  | .IRON => "IRON"
  | .UNRANKED => "UNRANKED"

/-- Rank divisions of the riven crate (`riven::consts::Division`). -/
inductive Division where
  | I | II | III | IV | V
deriving DecidableEq, Repr, Inhabited

/-- The `u8` representation of each `riven::consts::Division` variant:
`I = 1`, ..., `V = 5`.  Numerically smaller means a higher division. -/
def Division.value : Division → Nat
  | .I => 1
  | .II => 2
  | .III => 3
  | .IV => 4
  | .V => 5

/-- riven's `Ord for Division` is reversed on the discriminants, so that the
higher division is the greater value: `Division::I > Division::IV`. -/
def Division.cmp (a b : Division) : Ordering := cmpNat b.value a.value

/-- Display form of a division (riven's `Display`, the roman numeral). -/
def Division.toDisplay : Division → String
  | .I => "I"
  | .II => "II"
  | .III => "III"
  | .IV => "IV"
  | .V => "V"

/-- The queue types distinguished by `update_scoreboard`; every queue other
than `RANKED_SOLO_5x5` is discarded by the filter, so the remaining riven
variants are collapsed into representatives. -/
inductive QueueType where
  | RANKED_SOLO_5x5 | RANKED_FLEX_SR | OTHER
deriving DecidableEq, Repr, Inhabited

/-- `riven::models::league_v4::LeagueEntry`, restricted to the fields that
`main.rs` reads.  `wins` and `losses` are `i32` counts from the API, always
non-negative, modelled as `Nat`; `league_points` is kept as `Int`. -/
structure LeagueEntry where
  summonerName : String
  queueType : QueueType
  tier : Option Tier
  rank : Option Division
  leaguePoints : Int
  wins : Nat
  losses : Nat
  veteran : Bool
  hotStreak : Bool
deriving DecidableEq, Repr, Inhabited

/-- The comparator `compare` of `main.rs:355-373`.  `a.tier.unwrap()` is
modelled with `Option.get!`; every theorem about directioned ordering below
assumes the fields are present, matching the caller contract. -/
def LeagueEntry.compare (a b : LeagueEntry) : Ordering :=
  let aTier := a.tier.get!
  let bTier := b.tier.get!
  match Tier.cmp bTier aTier with
  | .eq =>
    let aDivision := a.rank.get!
    let bDivision := b.rank.get!
    match Division.cmp bDivision aDivision with
    | .eq => cmpInt b.leaguePoints a.leaguePoints
    | other => other
  | other => other

/-- Tier sort key of an entry (discriminant of the unwrapped tier). -/
def tv (e : LeagueEntry) : Nat := Tier.value e.tier.get!

/-- Division sort key of an entry (discriminant of the unwrapped rank;
smaller discriminant = higher division). -/
def dv (e : LeagueEntry) : Nat := Division.value e.rank.get!

theorem compare_eq_then (a b : LeagueEntry) :
    LeagueEntry.compare a b =
      (cmpNat (tv b) (tv a)).then
        ((cmpNat (dv a) (dv b)).then (cmpInt b.leaguePoints a.leaguePoints)) := by
  unfold LeagueEntry.compare Tier.cmp Division.cmp tv dv
  cases h1 : cmpNat (Tier.value b.tier.get!) (Tier.value a.tier.get!) with
  | eq =>
    cases h2 : cmpNat (Division.value a.rank.get!) (Division.value b.rank.get!) <;>
      simp [Ordering.then, h1, h2]
  | lt => simp [Ordering.then, h1]
  | gt => simp [Ordering.then, h1]

theorem compare_eq_lt_iff (a b : LeagueEntry) :
    LeagueEntry.compare a b = .lt ↔
      tv b < tv a ∨ (tv b = tv a ∧ (dv a < dv b ∨ (dv a = dv b ∧
        b.leaguePoints < a.leaguePoints))) := by
  rw [compare_eq_then]
  simp [Ordering.then_eq_lt, cmpNat_eq_lt, cmpNat_eq_eq, cmpInt_eq_lt]

theorem compare_eq_gt_iff (a b : LeagueEntry) :
    LeagueEntry.compare a b = .gt ↔
      tv a < tv b ∨ (tv b = tv a ∧ (dv b < dv a ∨ (dv a = dv b ∧
        a.leaguePoints < b.leaguePoints))) := by
  rw [compare_eq_then]
  simp [Ordering.then_eq_gt, cmpNat_eq_gt, cmpNat_eq_eq, cmpInt_eq_gt]

theorem compare_eq_eq_iff (a b : LeagueEntry) :
    LeagueEntry.compare a b = .eq ↔
      tv b = tv a ∧ dv a = dv b ∧ b.leaguePoints = a.leaguePoints := by
  rw [compare_eq_then]
  simp [Ordering.then_eq_eq, cmpNat_eq_eq, cmpInt_eq_eq]

/-- Fuel-based floor of the base-2 logarithm of a natural number; with
`n < 2 ^ fuel` the recursion stops before the fuel runs out. -/
def flog2Aux : ℕ → ℕ → ℕ
  | 0, _ => 0
  | fuel + 1, n => if n ≤ 1 then 0 else flog2Aux fuel (n / 2) + 1

/-- Floor of the base-2 logarithm of a positive natural number. -/
def flog2 (n : ℕ) : ℕ := flog2Aux n n

/-- Floor of the base-2 logarithm of the positive fraction `n / d`: the
unique `e` with `2 ^ e ≤ n / d < 2 ^ (e + 1)`. -/
def fracLog2 (n d : ℕ) : ℤ :=
  let e0 : ℤ := (flog2 n : ℤ) - (flog2 d : ℤ)
  if n * 2 ^ (-e0).toNat < d * 2 ^ e0.toNat then e0 - 1 else e0

/-- Round-half-even of the fraction `n / d` to a natural number (the
tie-breaking rule of IEEE 754 round-to-nearest). -/
def rneFrac (n d : ℕ) : ℕ :=
  if 2 * (n % d) < d then n / d
  else if d < 2 * (n % d) then n / d + 1
  else if n / d % 2 = 0 then n / d else n / d + 1

/-- Round the positive fraction `n / d` to the nearest IEEE binary64 value
(53-bit significand, round to nearest, ties to even): the mantissa
`rne((n / d) * 2 ^ (52 - e))` together with the binade exponent `e`; the
value represented is `mantissa * 2 ^ (e - 52)`.  The values reached by
`main.rs` (quotients of `i32` counts and their product with 100) are far
from the overflow and subnormal thresholds, so this unbounded-exponent
model agrees exactly with `f64` arithmetic there. -/
def f64Round (n d : ℕ) : ℕ × ℤ :=
  let e := fracLog2 n d
  (if e ≤ 52 then rneFrac (n * 2 ^ (52 - e).toNat) d
   else rneFrac n (d * 2 ^ (e - 52).toNat), e)

/-- The rational value represented by a mantissa-exponent pair. -/
def f64Val (p : ℕ × ℤ) : ℚ := (p.1 : ℚ) * 2 ^ (p.2 - 52)

/-- Scale the fraction `n / d` by `2 ^ e` without leaving the naturals. -/
def scalePow2 (n d : ℕ) (e : ℤ) : ℕ × ℕ :=
  if 0 ≤ e then (n * 2 ^ e.toNat, d) else (n, d * 2 ^ (-e).toNat)

/-- The win-rate expression of `main.rs:328`:
`((account.wins as f64 / (account.wins + account.losses) as f64) * 100_f64) as i64`.
The `i32` counts convert to `f64` exactly; the division and the
multiplication by `100_f64` each round once; the `as i64` cast truncates
toward zero, which on this non-negative result is the floor, and maps the
`NaN` produced by `0.0 / 0.0` to `0`.  A zero numerator stays an exact
`0.0` through both operations, so both degenerate branches return `0`. -/
def winRatePercent (wins losses : Nat) : ℤ :=
  if wins + losses = 0 then 0
  else if wins = 0 then 0
  else
    let q := f64Round wins (wins + losses)
    let pf := scalePow2 (q.1 * 100) 1 (q.2 - 52)
    let p := f64Round pf.1 pf.2
    if p.2 ≤ 52 then ((p.1 / 2 ^ (52 - p.2).toNat : ℕ) : ℤ)
    else ((p.1 * 2 ^ (p.2 - 52).toNat : ℕ) : ℤ)

/-- Rust's `format!` padding `a:<w` : left-align, pad with spaces to width
`w`, never truncate. -/
def padRight (s : String) (w : Nat) : String :=
  s ++ String.mk (List.replicate (w - s.length) ' ')

/-- Rust's `format!` padding `a:>w` : right-align. -/
def padLeft (s : String) (w : Nat) : String :=
  String.mk (List.replicate (w - s.length) ' ') ++ s

/-- Rust's `format!` padding `a:^w` : center, extra space on the right. -/
def padCenter (s : String) (w : Nat) : String :=
  String.mk (List.replicate ((w - s.length) / 2) ' ') ++ s ++
    String.mk (List.replicate (w - s.length - (w - s.length) / 2) ' ')

/-- The header row pushed at `main.rs:314-317`. -/
def headerRow : String :=
  "`" ++ padRight "#" 2 ++ "` `" ++ padCenter "Summoner" 16 ++ "` `"
    ++ padCenter "Rank" 14 ++ "` `" ++ padCenter "LP" 6 ++ "` `"
    ++ padCenter "Win" 4 ++ "` `" ++ padCenter "Loss" 4 ++ "` `"
    ++ padCenter "WL%" 3 ++ "`\n"

/-- One data row of the leaderboard block (`main.rs:319-336`), for the
1-indexed rank `rankNum` and an entry whose tier and division unwrapped to
`t` and `d`; the trailing marker gives veteran precedence over hot streak. -/
def rowText (rankNum : Nat) (t : Tier) (d : Division) (e : LeagueEntry) : String :=
  "`" ++ padRight (toString rankNum) 2 ++ "` `"
    ++ padRight e.summonerName 16 ++ "` `"
    ++ padRight t.toDisplay 10 ++ " " ++ padLeft d.toDisplay 3 ++ "` `"
    ++ padLeft (toString e.leaguePoints) 4 ++ "LP` `"
    ++ padLeft (toString e.wins) 3 ++ "W` `"
    ++ padLeft (toString e.losses) 3 ++ "L` `"
    ++ toString (winRatePercent e.wins e.losses) ++ "%`"
    ++ (if e.veteran then " 👴\n" else if e.hotStreak then " 🔥\n" else "\n")

/-- Rendering of one entry at 0-based index `idx`; `none` models the panics
`account.tier.unwrap()` / `account.rank.unwrap()` of `main.rs:323-324`. -/
def entryRow (idx : Nat) (e : LeagueEntry) : Option String :=
  match e.tier, e.rank with
  | some t, some d => some (rowText (idx + 1) t d e)
  | _, _ => none

/-- The render loop `for (idx, account) in accounts.iter().enumerate().take(10)`
(`main.rs:318-337`): `idx` is the running 0-based index and `fuel` the
remaining row budget of `take(10)`.  `none` models a panic inside the loop. -/
def renderDataRows (idx fuel : Nat) : List LeagueEntry → Option (List String)
  | [] => some []
  | e :: es =>
    match fuel with
    | 0 => some []
    | fuel2 + 1 =>
      match entryRow idx e with
      | none => none
      | some row =>
        match renderDataRows (idx + 1) fuel2 es with
        | none => none
        | some rows => some (row :: rows)

/-- The full rendered block as its list of rows: the header followed by at
most ten data rows. -/
def renderRows (accounts : List LeagueEntry) : Option (List String) :=
  match renderDataRows 0 10 accounts with
  | none => none
  | some rows => some (headerRow :: rows)

/-- Outbound calls to the chat platform and the ranking provider. -/
inductive Call where
  | lookup (key : String)
  | createMessage (chan : Nat)
  | editMessage (chan msg : Nat)
  | deleteMessage (chan msg : Nat)
deriving DecidableEq, Repr

/-- Ways one refresh cycle can end early.  `panicTier` and `panicRender` are
Rust panics (an `unwrap` of `None`); the others are propagated `Result`
errors of the store, the provider, embed validation, or the message edit. -/
inductive CycleErr where
  | store | provider | panicTier | panicRender | validation | edit
deriving DecidableEq, Repr

/-- `Call.editMessage` recognizer. -/
def Call.isEdit : Call → Bool
  | .editMessage _ _ => true
  | _ => false

/-- The provider identities queried in a trace, in order. -/
def lookupKeys : List Call → List String
  | [] => []
  | Call.lookup k :: cs => k :: lookupKeys cs
  | _ :: cs => lookupKeys cs

/-- The two reserved configuration keys of `main.rs:291`. -/
def isReserved (k : String) : Bool :=
  k == "scoreboard_channel" || k == "scoreboard_message"

/-- The per-response filter loop of `main.rs:297-306`: keep solo-queue
entries whose unwrapped tier is ranked, in arrival order.
`entry.tier.unwrap()` on an absent tier is the error `CycleErr.panicTier`. -/
def processEntries (acc : List LeagueEntry) :
    List LeagueEntry → Except CycleErr (List LeagueEntry)
  | [] => .ok acc
  | e :: es =>
    if e.queueType = QueueType.RANKED_SOLO_5x5 then
      match e.tier with
      | none => .error CycleErr.panicTier
      | some t =>
        if t.isRanked then processEntries (acc ++ [e]) es
        else processEntries acc es
    else processEntries acc es

/-- The fetch loop of `main.rs:290-308`: for every stored key that is not
reserved, one lookup against the ranking provider; the `?` on the lookup
aborts the loop with `CycleErr.provider`, and the filter loop runs on each
successful response before the next key is queried. -/
def fetchStep (prov : String → Except Unit (List LeagueEntry)) :
    List String → List LeagueEntry → List Call × Except CycleErr (List LeagueEntry)
  | [], acc => ([], .ok acc)
  | k :: ks, acc =>
    if isReserved k then fetchStep prov ks acc
    else
      match prov k with
      | .error _ => ([Call.lookup k], .error CycleErr.provider)
      | .ok entries =>
        match processEntries acc entries with
        | .error e => ([Call.lookup k], .error e)
        | .ok acc2 =>
          let rest := fetchStep prov ks acc2
          (Call.lookup k :: rest.1, rest.2)

/-- Stable insertion of an entry into an already sorted list: `e` goes in
front of the first element that does not strictly precede it. -/
def insertSorted (e : LeagueEntry) : List LeagueEntry → List LeagueEntry
  | [] => [e]
  | x :: xs =>
    if LeagueEntry.compare x e = Ordering.lt then x :: insertSorted e xs
    else e :: x :: xs

/-- `accounts.sort_by(compare)` (`main.rs:309`): Rust's `sort_by` is a
stable sort by the comparator.  It is modelled as stable insertion sort,
which computes the same stable sorted permutation; for this comparator (a
strict weak ordering, see the comparator theorem) that permutation is
unique, so the model is extensionally the semantics of `sort_by`. -/
def sortEntries (accounts : List LeagueEntry) : List LeagueEntry :=
  match accounts with
  | [] => []
  | e :: es => insertSorted e (sortEntries es)

/-- The scoreboard fields of `Context` (`main.rs:43-50`), each one an
`Arc<Mutex<Option<Id>>>`, collapsed to its contents in this sequential
model of one cycle. -/
structure Ctx where
  scoreboard_channel : Option Nat
  scoreboard_message : Option Nat
deriving DecidableEq, Repr

/-- The external collaborators of one refresh cycle: whether the durable
store answers, its key space, the ranking provider, and whether the final
message edit succeeds. -/
structure World where
  storeOk : Bool
  dbKeys : List String
  provider : String → Except Unit (List LeagueEntry)
  editOk : Bool

/-- `update_scoreboard` (`main.rs:277-353`): guard on the two scoreboard
fields, scan the store, fetch and filter per key, sort, render, and one
`update_message` call.  Returns the trace of outbound chat/provider calls
together with either the unchanged context or the error that ended the
cycle (panics included, as explicit error values). -/
def update_scoreboard (ctx : Ctx) (w : World) : List Call × Except CycleErr Ctx :=
  if ctx.scoreboard_channel.isNone ∨ ctx.scoreboard_message.isNone then
    ([], .ok ctx)
  else if !w.storeOk then ([], .error CycleErr.store)
  else
    let fetched := fetchStep w.provider w.dbKeys []
    match fetched.2 with
    | .error e => (fetched.1, .error e)
    | .ok accounts =>
      let sorted := sortEntries accounts
      match ctx.scoreboard_channel, ctx.scoreboard_message with
      | some chan, some msg =>
        match renderRows sorted with
        | none => (fetched.1, .error CycleErr.panicRender)
        | some rows =>
          if (String.join rows).length > 4096 then
            (fetched.1, .error CycleErr.validation)
          else if w.editOk then
            (fetched.1 ++ [Call.editMessage chan msg], .ok ctx)
          else
            (fetched.1 ++ [Call.editMessage chan msg], .error CycleErr.edit)
      | _, _ => (fetched.1, .error CycleErr.panicRender)

/-- The scoreboard is armed iff both location fields are present. -/
def Ctx.armed (ctx : Ctx) : Prop :=
  ctx.scoreboard_channel.isSome ∧ ctx.scoreboard_message.isSome

/-- The `Event::MessageCreate` arm of `handle_event` (`main.rs:242-247`).
The expression `ctx.scoreboard_channel.lock().unwrap().unwrap()` unwraps the
option before the comparison, so an unset scoreboard channel is a panic,
modelled as `none`; otherwise the returned trace holds the `delete_message`
call exactly when the message sits in the scoreboard channel and its author
is not a bot. -/
def handle_message_create (ctx : Ctx) (msgChannel msgId : Nat)
    (authorIsBot : Bool) : Option (List Call) :=
  match ctx.scoreboard_channel with
  | none => none
  | some sc =>
    if msgChannel = sc ∧ authorIsBot = false then
      some [Call.deleteMessage msgChannel msgId]
    else some []

/-- One iteration of the refresh loop spawned by `main` (`main.rs:148-153`):
`update_scoreboard(&thread_ctx).await.unwrap()`.  An error from the cycle is
unwrapped, i.e. it panics the spawned task, so the surrounding `loop` never
reaches another iteration; the panic is modelled as `none`. -/
def scheduler_tick (ctx : Ctx) (w : World) : Option (List Call) :=
  match update_scoreboard ctx w with
  | (calls, .ok _) => some calls
  | (_, .error _) => none

/-- The shared scoreboard location as a concurrent reader sees it: the
contents of the two separate `Mutex<Option<_>>` fields of `Context`. -/
structure LocState where
  chan : Option Nat
  msg : Option Nat
deriving DecidableEq, Repr

/-- A read of the location pair, e.g. `main.rs:311-312` or `main.rs:243`. -/
def readLoc (s : LocState) : Option Nat × Option Nat := (s.chan, s.msg)

/-- First critical section of arming (`main.rs:219-222`): the `leaderboard`
handler stores the invoking channel under the channel mutex. -/
def armSetChannel (c : Nat) (s : LocState) : LocState := { s with chan := some c }

/-- Second critical section of arming (`main.rs:265-268`): inside
`launch_scoreboard`, after the `create_message` call is awaited, the new
message id is stored under the message mutex. -/
def armSetMessage (m : Nat) (s : LocState) : LocState := { s with msg := some m }

/-- The location states observable by a concurrent reader at the suspension
points of the arm sequence `leaderboard -> launch_scoreboard`: before
arming, between the two critical sections (while `create_message` and the
store write are awaited), and after both fields are set. -/
def armObservable (c m : Nat) (s : LocState) : List LocState :=
  [s, armSetChannel c s, armSetMessage m (armSetChannel c s)]

/-- Sample entry: Gold II, 50 LP. -/
def sampleGold2a : LeagueEntry :=
  ⟨"alice", .RANKED_SOLO_5x5, some .GOLD, some .II, 50, 10, 5, false, true⟩

/-- Sample entry: Gold II, 30 LP. -/
def sampleGold2b : LeagueEntry :=
  ⟨"bob", .RANKED_SOLO_5x5, some .GOLD, some .II, 30, 0, 0, true, true⟩

/-- Sample entry: Gold III, 90 LP. -/
def sampleGold3 : LeagueEntry :=
  ⟨"carol", .RANKED_SOLO_5x5, some .GOLD, some .III, 90, 3, 4, false, false⟩

/-- Sample entry: Silver I, 99 LP. -/
def sampleSilver1 : LeagueEntry :=
  ⟨"dave", .RANKED_SOLO_5x5, some .SILVER, some .I, 99, 8, 1, false, false⟩

/-- A provider that fails exactly on the key named bad. -/
def failAtBadWorld : World :=
  ⟨true, ["k0", "bad", "k2"],
   fun k => if k = "bad" then Except.error () else Except.ok [], true⟩

theorem tv_of_tier {a : LeagueEntry} {t : Tier} (h : a.tier = some t) :
    tv a = t.value := by
  simp [tv, h, Option.get!]

theorem dv_of_rank {a : LeagueEntry} {d : Division} (h : a.rank = some d) :
    dv a = d.value := by
  simp [dv, h, Option.get!]

/-- C1: for entries with tier and division present, `compare` orders
descending, best first: a strictly higher tier (greater riven `Tier` value)
sorts first regardless of division and points; on equal tiers the higher
division (the smaller riven `Division` discriminant, `I = 1` being highest)
sorts first; on equal tier and division the higher `league_points` sorts
first; and `compare` is a strict weak ordering: irreflexive-by-`eq`,
asymmetric, with transitive strictness and transitive equivalence, on all
entries. -/
theorem comparator_descending_strict_weak_order :
    (∀ a b ta tb, a.tier = some ta → b.tier = some tb →
        Tier.value tb < Tier.value ta → LeagueEntry.compare a b = .lt)
  ∧ (∀ a b t da db, a.tier = some t → b.tier = some t →
        a.rank = some da → b.rank = some db →
        Division.value da < Division.value db → LeagueEntry.compare a b = .lt)
  ∧ (∀ a b t d, a.tier = some t → b.tier = some t →
        a.rank = some d → b.rank = some d →
        b.leaguePoints < a.leaguePoints → LeagueEntry.compare a b = .lt)
  ∧ (∀ a, LeagueEntry.compare a a = .eq)
  ∧ (∀ a b, LeagueEntry.compare a b = .lt ↔ LeagueEntry.compare b a = .gt)
  ∧ (∀ a b c, LeagueEntry.compare a b = .lt → LeagueEntry.compare b c = .lt →
        LeagueEntry.compare a c = .lt)
  ∧ (∀ a b c, LeagueEntry.compare a b = .eq → LeagueEntry.compare b c = .eq →
        LeagueEntry.compare a c = .eq) := by
  refine ⟨?_, ?_, ?_, ?_, ?_, ?_, ?_⟩
  · intro a b ta tb ha hb h
    rw [compare_eq_lt_iff, tv_of_tier ha, tv_of_tier hb]
    exact Or.inl h
  · intro a b t da db ha hb hda hdb h
    rw [compare_eq_lt_iff, tv_of_tier ha, tv_of_tier hb,
      dv_of_rank hda, dv_of_rank hdb]
    exact Or.inr ⟨rfl, Or.inl h⟩
  · intro a b t d ha hb hda hdb h
    rw [compare_eq_lt_iff, tv_of_tier ha, tv_of_tier hb,
      dv_of_rank hda, dv_of_rank hdb]
    exact Or.inr ⟨rfl, Or.inr ⟨rfl, h⟩⟩
  · intro a
    rw [compare_eq_eq_iff]
    exact ⟨rfl, rfl, rfl⟩
  · intro a b
    rw [compare_eq_lt_iff, compare_eq_gt_iff]
    constructor <;> (intro h; rcases h with h | ⟨h1, h | ⟨h2, h3⟩⟩)
    · exact Or.inl h
    · exact Or.inr ⟨h1.symm, Or.inl h⟩
    · exact Or.inr ⟨h1.symm, Or.inr ⟨h2.symm, h3⟩⟩
    · exact Or.inl h
    · exact Or.inr ⟨h1.symm, Or.inl h⟩
    · exact Or.inr ⟨h1.symm, Or.inr ⟨h2.symm, h3⟩⟩
  · intro a b c hab hbc
    rw [compare_eq_lt_iff] at hab hbc ⊢
    rcases hab with h | ⟨h1, h | ⟨h2, h3⟩⟩ <;>
      rcases hbc with g | ⟨g1, g | ⟨g2, g3⟩⟩ <;>
      [skip; skip; skip; skip; skip; skip; skip; skip; skip] <;>
      first
        | (left; omega)
        | (right; constructor; omega; left; omega)
        | (right; constructor; omega; right; constructor; omega; omega)
  · intro a b c hab hbc
    rw [compare_eq_eq_iff] at hab hbc ⊢
    exact ⟨hbc.1.trans hab.1, hab.2.1.trans hbc.2.1, hbc.2.2.trans hab.2.2⟩

/-- Witness for the comparator theorem at concrete entries: Gold II 50 LP
sorts before Silver I 99 LP (tier wins), before Gold III 90 LP (division
wins), and before Gold II 30 LP (points win). -/
theorem comparator_descending_strict_weak_order_witness :
    LeagueEntry.compare sampleGold2a sampleSilver1 = .lt
  ∧ LeagueEntry.compare sampleGold2a sampleGold3 = .lt
  ∧ LeagueEntry.compare sampleGold2a sampleGold2b = .lt :=
  ⟨comparator_descending_strict_weak_order.1 sampleGold2a sampleSilver1
      Tier.GOLD Tier.SILVER rfl rfl (by decide),
   comparator_descending_strict_weak_order.2.1 sampleGold2a sampleGold3
      Tier.GOLD Division.II Division.III rfl rfl rfl rfl (by decide),
   comparator_descending_strict_weak_order.2.2.1 sampleGold2a sampleGold2b
      Tier.GOLD Division.II rfl rfl rfl rfl (by decide)⟩

theorem fetchStep_calls_are_lookups (prov : String → Except Unit (List LeagueEntry)) :
    ∀ (ks : List String) (acc : List LeagueEntry) (c : Call),
      c ∈ (fetchStep prov ks acc).1 →
        ∃ k, c = Call.lookup k ∧ isReserved k = false ∧ k ∈ ks := by
  intro ks
  induction ks with
  | nil => intro acc c h; simp [fetchStep] at h
  | cons k ks ih =>
    intro acc c h
    by_cases hr : isReserved k
    · rw [fetchStep, if_pos hr] at h
      obtain ⟨k2, h1, h2, h3⟩ := ih acc c h
      exact ⟨k2, h1, h2, List.mem_cons_of_mem _ h3⟩
    · rw [fetchStep, if_neg hr] at h
      cases hp : prov k with
      | error e => simp only [hp] at h; simp at h
                   exact ⟨k, h, Bool.eq_false_iff.mpr hr, List.mem_cons_self _ _⟩
      | ok entries =>
        simp only [hp] at h
        cases hq : processEntries acc entries with
        | error e => simp only [hq] at h; simp at h
                     exact ⟨k, h, Bool.eq_false_iff.mpr hr, List.mem_cons_self _ _⟩
        | ok acc2 =>
          simp only [hq] at h; simp at h
          rcases h with h | h
          · exact ⟨k, h, Bool.eq_false_iff.mpr hr, List.mem_cons_self _ _⟩
          · obtain ⟨k2, h1, h2, h3⟩ := ih acc2 c h
            exact ⟨k2, h1, h2, List.mem_cons_of_mem _ h3⟩

theorem fetchStep_no_edit (prov : String → Except Unit (List LeagueEntry))
    (ks : List String) (acc : List LeagueEntry) :
    (fetchStep prov ks acc).1.filter Call.isEdit = [] := by
  rw [List.filter_eq_nil_iff]
  intro c hc
  obtain ⟨k, h1, _, _⟩ := fetchStep_calls_are_lookups prov ks acc c hc
  subst h1
  simp [Call.isEdit]

/-- C2: a disarmed refresh cycle (stored channel id or stored message id
absent) returns success with the state unchanged and an empty trace of
outbound chat/provider calls; a cycle that succeeds while armed leaves the
state unchanged and its trace holds exactly one edit-message call. -/
theorem refresh_disarmed_noop_armed_single_edit (ctx : Ctx) (w : World) :
    (ctx.scoreboard_channel = none ∨ ctx.scoreboard_message = none →
      update_scoreboard ctx w = ([], Except.ok ctx))
  ∧ (∀ r, ctx.armed → (update_scoreboard ctx w).2 = Except.ok r →
      r = ctx ∧ ((update_scoreboard ctx w).1.filter Call.isEdit).length = 1) := by
  constructor
  · intro h
    have hguard : ctx.scoreboard_channel.isNone ∨ ctx.scoreboard_message.isNone := by
      rcases h with h | h
      · exact Or.inl (by simp [h])
      · exact Or.inr (by simp [h])
    rw [update_scoreboard, if_pos hguard]
  · intro r harm hok
    obtain ⟨c, hc⟩ := Option.isSome_iff_exists.mp harm.1
    obtain ⟨m, hm⟩ := Option.isSome_iff_exists.mp harm.2
    have hguard : ¬(ctx.scoreboard_channel.isNone ∨ ctx.scoreboard_message.isNone) := by
      simp [hc, hm]
    cases hs : w.storeOk with
    | false =>
      rw [update_scoreboard, if_neg hguard] at hok
      simp [hs] at hok
    | true =>
      rw [update_scoreboard, if_neg hguard] at hok ⊢
      simp only [hs, Bool.not_true, if_neg (by simp : ¬(false : Bool) = true)] at hok ⊢
      cases hf : (fetchStep w.provider w.dbKeys []).2 with
      | error e => simp [hf] at hok
      | ok accounts =>
        simp only [hf, hc, hm] at hok ⊢
        cases hR : renderRows (sortEntries accounts) with
        | none => simp [hR] at hok
        | some rows =>
          simp only [hR] at hok ⊢
          by_cases hV : (String.join rows).length > 4096
          · rw [if_pos hV] at hok; simp at hok
          · rw [if_neg hV] at hok ⊢
            cases hE : w.editOk with
            | false => simp [hE] at hok
            | true =>
              rw [if_pos hE] at hok
              rw [if_pos (rfl : (true : Bool) = true)]
              refine ⟨by simpa using hok.symm, ?_⟩
              rw [List.filter_append, fetchStep_no_edit]
              simp [Call.isEdit]

/-- Witness for the refresh-cycle no-op/single-edit theorem: a concrete
disarmed context is a no-op, and a concrete armed context with one
registered key and a succeeding provider performs exactly one edit. -/
theorem refresh_disarmed_noop_armed_single_edit_witness :
    update_scoreboard ⟨none, some 7⟩
        ⟨true, ["k1"], fun _ => Except.ok [sampleGold2a], true⟩ = ([], Except.ok ⟨none, some 7⟩)
  ∧ ((update_scoreboard ⟨some 5, some 7⟩
        ⟨true, ["k1"], fun _ => Except.ok [sampleGold2a], true⟩).1.filter Call.isEdit).length = 1 :=
  ⟨(refresh_disarmed_noop_armed_single_edit ⟨none, some 7⟩
      ⟨true, ["k1"], fun _ => Except.ok [sampleGold2a], true⟩).1 (Or.inl rfl),
   ((refresh_disarmed_noop_armed_single_edit ⟨some 5, some 7⟩
      ⟨true, ["k1"], fun _ => Except.ok [sampleGold2a], true⟩).2 ⟨some 5, some 7⟩
      ⟨rfl, rfl⟩ rfl).2⟩

theorem mem_lookupKeys {k : String} :
    ∀ {cs : List Call}, k ∈ lookupKeys cs ↔ Call.lookup k ∈ cs := by
  intro cs
  induction cs with
  | nil => simp [lookupKeys]
  | cons c cs ih => cases c <;> simp [lookupKeys, ih]

theorem lookupKeys_append (xs ys : List Call) :
    lookupKeys (xs ++ ys) = lookupKeys xs ++ lookupKeys ys := by
  induction xs with
  | nil => rfl
  | cons c cs ih => cases c <;> simp [lookupKeys, ih]

theorem fetchStep_success_lookupKeys (prov : String → Except Unit (List LeagueEntry)) :
    ∀ (ks : List String) (acc res : List LeagueEntry),
      (fetchStep prov ks acc).2 = Except.ok res →
      lookupKeys (fetchStep prov ks acc).1 = ks.filter (fun k => !isReserved k) := by
  intro ks
  induction ks with
  | nil => intro acc res h; simp [fetchStep, lookupKeys]
  | cons k ks ih =>
    intro acc res h
    by_cases hr : isReserved k
    · rw [fetchStep, if_pos hr] at h ⊢
      rw [List.filter_cons_of_neg (by simp [hr])]
      exact ih acc res h
    · rw [fetchStep, if_neg hr] at h ⊢
      cases hp : prov k with
      | error e => simp only [hp] at h; simp at h
      | ok entries =>
        simp only [hp] at h ⊢
        cases hq : processEntries acc entries with
        | error e => simp only [hq] at h; simp at h
        | ok acc2 =>
          simp only [hq] at h ⊢
          rw [List.filter_cons_of_pos (by simp [hr])]
          simp only [lookupKeys]
          rw [ih acc2 res (by simpa using h)]

theorem fetchStep_append (prov : String → Except Unit (List LeagueEntry)) :
    ∀ (ks1 : List String) (ks2 : List String) (acc : List LeagueEntry)
      (cs : List Call) (acc2 : List LeagueEntry),
      fetchStep prov ks1 acc = (cs, Except.ok acc2) →
      fetchStep prov (ks1 ++ ks2) acc =
        (cs ++ (fetchStep prov ks2 acc2).1, (fetchStep prov ks2 acc2).2) := by
  intro ks1
  induction ks1 with
  | nil =>
    intro ks2 acc cs acc2 h
    rw [fetchStep, Prod.mk.injEq] at h
    obtain ⟨h1, h2⟩ := h
    have h3 : acc = acc2 := by simpa using h2
    subst h3
    rw [← h1, List.nil_append, List.nil_append]
  | cons k ks ih =>
    intro ks2 acc cs acc2 h
    by_cases hr : isReserved k
    · rw [fetchStep, if_pos hr] at h
      rw [List.cons_append, fetchStep, if_pos hr]
      exact ih ks2 acc cs acc2 h
    · rw [fetchStep, if_neg hr] at h
      rw [List.cons_append, fetchStep, if_neg hr]
      cases hp : prov k with
      | error e => simp only [hp] at h; simp at h
      | ok entries =>
        simp only [hp] at h ⊢
        cases hq : processEntries acc entries with
        | error e => simp only [hq] at h; simp at h
        | ok acc3 =>
          simp only [hq] at h ⊢
          rw [Prod.mk.injEq] at h
          obtain ⟨h1, h2⟩ := h
          have hpair : fetchStep prov ks acc3 =
              ((fetchStep prov ks acc3).1, Except.ok acc2) := by
            rw [← h2]
          rw [ih ks2 acc3 (fetchStep prov ks acc3).1 acc2 hpair]
          rw [← h1]
          simp

theorem update_scoreboard_success (ctx : Ctx) (w : World) (r : Ctx) (c m : Nat)
    (hc : ctx.scoreboard_channel = some c) (hm : ctx.scoreboard_message = some m)
    (hok : (update_scoreboard ctx w).2 = Except.ok r) :
    r = ctx ∧ ∃ accounts, (fetchStep w.provider w.dbKeys []).2 = Except.ok accounts ∧
      (update_scoreboard ctx w).1 =
        (fetchStep w.provider w.dbKeys []).1 ++ [Call.editMessage c m] := by
  have hguard : ¬(ctx.scoreboard_channel.isNone ∨ ctx.scoreboard_message.isNone) := by
    simp [hc, hm]
  cases hs : w.storeOk with
  | false =>
    rw [update_scoreboard, if_neg hguard] at hok
    simp [hs] at hok
  | true =>
    rw [update_scoreboard, if_neg hguard] at hok ⊢
    simp only [hs, Bool.not_true, if_neg (by simp : ¬(false : Bool) = true)] at hok ⊢
    cases hf : (fetchStep w.provider w.dbKeys []).2 with
    | error e => simp [hf] at hok
    | ok accounts =>
      simp only [hf, hc, hm] at hok ⊢
      cases hR : renderRows (sortEntries accounts) with
      | none => simp [hR] at hok
      | some rows =>
        simp only [hR] at hok ⊢
        by_cases hV : (String.join rows).length > 4096
        · rw [if_pos hV] at hok; simp at hok
        · rw [if_neg hV] at hok ⊢
          cases hE : w.editOk with
          | false => simp [hE] at hok
          | true =>
            rw [if_pos hE] at hok
            rw [if_pos (rfl : (true : Bool) = true)]
            exact ⟨by simpa using hok.symm, accounts, rfl, rfl⟩

theorem update_scoreboard_trace (ctx : Ctx) (w : World) :
    (update_scoreboard ctx w).1 = [] ∨
    (update_scoreboard ctx w).1 = (fetchStep w.provider w.dbKeys []).1 ∨
    ∃ c m, (update_scoreboard ctx w).1 =
      (fetchStep w.provider w.dbKeys []).1 ++ [Call.editMessage c m] := by
  rw [update_scoreboard]
  split
  · left; rfl
  · split
    · left; rfl
    · cases hf : (fetchStep w.provider w.dbKeys []).2 with
      | error e => simp [hf]
      | ok accounts =>
        simp only [hf]
        cases hc : ctx.scoreboard_channel with
        | none => simp
        | some c =>
          cases hm : ctx.scoreboard_message with
          | none => simp
          | some m =>
            cases hR : renderRows (sortEntries accounts) with
            | none => simp [hR]
            | some rows =>
              simp only [hR]
              by_cases hV : (String.join rows).length > 4096
              · rw [if_pos hV]; right; left; rfl
              · rw [if_neg hV]
                cases hE : w.editOk with
                | false =>
                  rw [if_neg (by simp [hE])]
                  exact Or.inr (Or.inr ⟨c, m, rfl⟩)
                | true =>
                  rw [if_pos (rfl : (true : Bool) = true)]
                  exact Or.inr (Or.inr ⟨c, m, rfl⟩)

/-- C10: in every refresh cycle, every identity queried against the
provider is a stored key and is not one of the two reserved configuration
keys; and in a successful armed cycle the queried identities are exactly
the stored keys minus the reserved ones, in storage order. -/
theorem refresh_queries_exactly_nonreserved_keys (ctx : Ctx) (w : World) :
    (∀ k, k ∈ lookupKeys (update_scoreboard ctx w).1 →
        isReserved k = false ∧ k ∈ w.dbKeys)
  ∧ (∀ r, ctx.armed → (update_scoreboard ctx w).2 = Except.ok r →
      lookupKeys (update_scoreboard ctx w).1 =
        w.dbKeys.filter (fun k => !isReserved k)) := by
  constructor
  · intro k hk
    rcases update_scoreboard_trace ctx w with h | h | ⟨c, m, h⟩
    · rw [h] at hk; simp [lookupKeys] at hk
    · rw [h] at hk
      obtain ⟨k2, he, hres, hmem⟩ :=
        fetchStep_calls_are_lookups w.provider w.dbKeys [] _ (mem_lookupKeys.mp hk)
      obtain rfl : k = k2 := by injection he
      exact ⟨hres, hmem⟩
    · rw [h, lookupKeys_append] at hk
      simp only [lookupKeys, List.append_nil] at hk
      obtain ⟨k2, he, hres, hmem⟩ :=
        fetchStep_calls_are_lookups w.provider w.dbKeys [] _ (mem_lookupKeys.mp hk)
      obtain rfl : k = k2 := by injection he
      exact ⟨hres, hmem⟩
  · intro r harm hok
    obtain ⟨c, hc⟩ := Option.isSome_iff_exists.mp harm.1
    obtain ⟨m, hm⟩ := Option.isSome_iff_exists.mp harm.2
    obtain ⟨-, accounts, hf, htr⟩ := update_scoreboard_success ctx w r c m hc hm hok
    rw [htr, lookupKeys_append]
    simp only [lookupKeys, List.append_nil]
    exact fetchStep_success_lookupKeys w.provider w.dbKeys [] accounts hf

/-- Witness for the reserved-keys theorem: with the two reserved keys and
two identities in the store, a successful armed cycle queries exactly the
two identities. -/
theorem refresh_queries_exactly_nonreserved_keys_witness :
    lookupKeys (update_scoreboard ⟨some 5, some 7⟩
        ⟨true, ["scoreboard_channel", "k1", "scoreboard_message", "k2"],
         fun _ => Except.ok [sampleGold2a], true⟩).1 =
      List.filter (fun k => !isReserved k)
        ["scoreboard_channel", "k1", "scoreboard_message", "k2"] :=
  (refresh_queries_exactly_nonreserved_keys ⟨some 5, some 7⟩
      ⟨true, ["scoreboard_channel", "k1", "scoreboard_message", "k2"],
       fun _ => Except.ok [sampleGold2a], true⟩).2
    ⟨some 5, some 7⟩ ⟨rfl, rfl⟩ rfl

/-- C5: if the provider lookup fails for a registered identity, the whole
cycle aborts there: `update_scoreboard` returns the provider error, its
trace ends with the failing lookup (so no identity after the failing one is
queried), and the trace holds no edit-message call. -/
theorem refresh_aborts_on_first_lookup_failure
    (ctx : Ctx) (w : World) (ks1 ks2 : List String) (k : String)
    (cs1 : List Call) (acc1 : List LeagueEntry)
    (harm : ctx.armed) (hstore : w.storeOk = true)
    (hkeys : w.dbKeys = ks1 ++ k :: ks2)
    (hpre : fetchStep w.provider ks1 [] = (cs1, Except.ok acc1))
    (hk : isReserved k = false)
    (hfail : w.provider k = Except.error ()) :
    update_scoreboard ctx w = (cs1 ++ [Call.lookup k], Except.error CycleErr.provider)
  ∧ ∀ c m, Call.editMessage c m ∉ cs1 ++ [Call.lookup k] := by
  have hguard : ¬(ctx.scoreboard_channel.isNone ∨ ctx.scoreboard_message.isNone) := by
    obtain ⟨c, hc⟩ := Option.isSome_iff_exists.mp harm.1
    obtain ⟨m, hm⟩ := Option.isSome_iff_exists.mp harm.2
    simp [hc, hm]
  have hfetch : fetchStep w.provider w.dbKeys [] =
      (cs1 ++ [Call.lookup k], Except.error CycleErr.provider) := by
    rw [hkeys, fetchStep_append w.provider ks1 (k :: ks2) [] cs1 acc1 hpre]
    rw [fetchStep, if_neg (by simp [hk])]
    simp only [hfail]
  constructor
  · rw [update_scoreboard, if_neg hguard, if_neg (by simp [hstore])]
    simp only [hfetch]
  · intro c m hmem
    rcases List.mem_append.mp hmem with hce | hce
    · have hin : Call.editMessage c m ∈ (fetchStep w.provider ks1 []).1 := by
        rw [hpre]; exact hce
      obtain ⟨k2, he, -, -⟩ := fetchStep_calls_are_lookups w.provider ks1 [] _ hin
      exact Call.noConfusion he
    · simp at hce

/-- Witness for the abort-on-failure theorem: with keys k0, bad, k2 and a
provider failing on bad, the armed cycle returns the provider error after
querying exactly k0 and bad. -/
theorem refresh_aborts_on_first_lookup_failure_witness :
    update_scoreboard ⟨some 1, some 2⟩ failAtBadWorld =
      ([Call.lookup "k0"] ++ [Call.lookup "bad"], Except.error CycleErr.provider) :=
  (refresh_aborts_on_first_lookup_failure ⟨some 1, some 2⟩ failAtBadWorld
      ["k0"] ["k2"] "bad" [Call.lookup "k0"] [] ⟨rfl, rfl⟩ rfl rfl
      rfl (by decide) rfl).1

/-- C3 (code defect): the filter loop of the refresh cycle, evaluated at a
solo-queue entry whose tier is absent: `entry.tier.unwrap()` at
`main.rs:302` panics — modelled as `CycleErr.panicTier` — instead of
filtering the entry out. -/
theorem filter_panics_on_absent_tier :
    processEntries []
      [⟨"x", QueueType.RANKED_SOLO_5x5, none, none, 0, 0, 0, false, false⟩] =
      Except.error CycleErr.panicTier := rfl

/-- C8 (code defect): the moderation arm of `handle_event` with the
scoreboard channel unset panics — `unwrap()` of `None` at `main.rs:243`,
modelled as the result `none` — instead of skipping; with the channel set
it deletes a message exactly when the message sits in the scoreboard
channel and its author is not a bot. -/
theorem moderation_panics_when_channel_unset :
    handle_message_create ⟨none, none⟩ 5 9 false = none
  ∧ (∀ sc msgv chan mid bot,
      handle_message_create ⟨some sc, msgv⟩ chan mid bot =
        if chan = sc ∧ bot = false then some [Call.deleteMessage chan mid]
        else some []) :=
  ⟨rfl, fun _ _ _ _ _ => rfl⟩

/-- C9 (code defect): a scheduled tick whose refresh cycle fails with a
provider error: the loop body `update_scoreboard(...).await.unwrap()` at
`main.rs:150` unwraps the error and panics the scheduler task — modelled as
`none` — so the scheduling loop stops instead of logging and continuing. -/
theorem scheduler_tick_panics_on_cycle_error :
    scheduler_tick ⟨some 1, some 2⟩
      ⟨true, ["k0"], fun _ => Except.error (), true⟩ = none := rfl

/-- C4 counterexample: the state after only the first critical section of
arming channel 5 is one of the states observable by a concurrent reader,
and a read there returns the half-updated pair (channel 5 set, message
absent), contradicting the claim that no reader ever observes a
half-updated pair. -/
theorem arm_halfupdated_pair_observable :
    armSetChannel 5 ⟨none, none⟩ ∈ armObservable 5 7 ⟨none, none⟩
  ∧ readLoc (armSetChannel 5 ⟨none, none⟩) = (some 5, none) :=
  ⟨by decide, rfl⟩

/-- C4 amended: each field of the location is guarded by its own mutex and
arm writes them in two separate critical sections, so the half-updated pair
is observable in between; once both critical sections have completed
(and absent interference), a read returns the new channel paired with the
new message id, and that completed state is the final state of the arm
sequence. -/
theorem arm_completed_read_pair (c m : Nat) (s : LocState) :
    readLoc (armSetMessage m (armSetChannel c s)) = (some c, some m)
  ∧ (armObservable c m s).getLast? = some (armSetMessage m (armSetChannel c s)) :=
  ⟨rfl, rfl⟩

theorem renderDataRows_spec :
    ∀ (l : List LeagueEntry) (idx fuel : Nat),
      (∀ e ∈ l, e.tier.isSome ∧ e.rank.isSome) →
      ∃ rows, renderDataRows idx fuel l = some rows ∧
        rows.length = min l.length fuel ∧
        ∀ i, i < min l.length fuel →
          ∃ e t d, l.get? i = some e ∧ e.tier = some t ∧ e.rank = some d ∧
            rows.get? i = some (rowText (idx + i + 1) t d e) := by
  intro l
  induction l with
  | nil =>
    intro idx fuel h
    exact ⟨[], by simp [renderDataRows], by simp, by simp⟩
  | cons e es ih =>
    intro idx fuel h
    cases fuel with
    | zero => exact ⟨[], by simp [renderDataRows], by simp, by simp⟩
    | succ fuel2 =>
      obtain ⟨ht, hd⟩ := h e (List.mem_cons_self e es)
      obtain ⟨t, htt⟩ := Option.isSome_iff_exists.mp ht
      obtain ⟨d, hdd⟩ := Option.isSome_iff_exists.mp hd
      obtain ⟨rows2, h1, h2, h3⟩ :=
        ih (idx + 1) fuel2 (fun x hx => h x (List.mem_cons_of_mem _ hx))
      refine ⟨rowText (idx + 1) t d e :: rows2, ?_, ?_, ?_⟩
      · rw [renderDataRows]
        simp only [entryRow, htt, hdd, h1]
      · simp only [List.length_cons, h2]
        omega
      · intro i hi
        cases i with
        | zero => exact ⟨e, t, d, rfl, htt, hdd, by simp⟩
        | succ j =>
          have hj : j < min es.length fuel2 := by
            simp only [List.length_cons] at hi
            omega
          obtain ⟨e2, t2, d2, g1, g2, g3, g4⟩ := h3 j hj
          refine ⟨e2, t2, d2, by simpa using g1, g2, g3, ?_⟩
          have harith : idx + 1 + j + 1 = idx + (j + 1) + 1 := by omega
          rw [← harith]
          simpa using g4

/-- C7: for every input list whose entries carry a present tier and
division, the rendered block is exactly one header row followed by
min(n, 10) data rows, the i-th data row carrying the 1-indexed rank i+1 and
describing the i-th entry of the list. -/
theorem renderer_header_and_ranked_rows (l : List LeagueEntry)
    (h : ∀ e ∈ l, e.tier.isSome ∧ e.rank.isSome) :
    ∃ rows, renderRows l = some rows ∧
      rows.length = 1 + min l.length 10 ∧
      rows.get? 0 = some headerRow ∧
      ∀ i, i < min l.length 10 →
        ∃ e t d, l.get? i = some e ∧ e.tier = some t ∧ e.rank = some d ∧
          rows.get? (i + 1) = some (rowText (i + 1) t d e) := by
  obtain ⟨rows2, h1, h2, h3⟩ := renderDataRows_spec l 0 10 h
  refine ⟨headerRow :: rows2, ?_, ?_, rfl, ?_⟩
  · simp only [renderRows, h1]
  · rw [List.length_cons, h2]
    omega
  · intro i hi
    obtain ⟨e, t, d, g1, g2, g3, g4⟩ := h3 i hi
    exact ⟨e, t, d, g1, g2, g3, by simpa using g4⟩

/-- Witness for the renderer theorem at a concrete two-entry list. -/
theorem renderer_header_and_ranked_rows_witness :
    ∃ rows, renderRows [sampleGold2a, sampleGold2b] = some rows ∧
      rows.length = 1 + min (List.length [sampleGold2a, sampleGold2b]) 10 ∧
      rows.get? 0 = some headerRow ∧
      ∀ i, i < min (List.length [sampleGold2a, sampleGold2b]) 10 →
        ∃ e t d, List.get? [sampleGold2a, sampleGold2b] i = some e ∧
          e.tier = some t ∧ e.rank = some d ∧
          rows.get? (i + 1) = some (rowText (i + 1) t d e) :=
  renderer_header_and_ranked_rows [sampleGold2a, sampleGold2b] (by decide)

theorem flog2Aux_spec :
    ∀ (fuel n : ℕ), 1 ≤ n → n < 2 ^ fuel →
      2 ^ flog2Aux fuel n ≤ n ∧ n < 2 ^ (flog2Aux fuel n + 1) := by
  intro fuel
  induction fuel with
  | zero => intro n h1 h2; simp at h2; omega
  | succ fuel ih =>
    intro n h1 h2
    by_cases hn : n ≤ 1
    · have he : n = 1 := by omega
      subst he
      simp [flog2Aux]
    · rw [flog2Aux, if_neg hn]
      have h3 : 1 ≤ n / 2 := by omega
      have h4 : n / 2 < 2 ^ fuel := by
        rw [pow_succ] at h2
        omega
      obtain ⟨ha, hb⟩ := ih (n / 2) h3 h4
      rw [pow_succ] at hb
      constructor
      · rw [pow_succ]
        omega
      · rw [pow_succ, pow_succ]
        omega

theorem flog2_spec (n : ℕ) (h : 1 ≤ n) :
    2 ^ flog2 n ≤ n ∧ n < 2 ^ (flog2 n + 1) :=
  flog2Aux_spec n n h (Nat.lt_two_pow n)

theorem div_lt_zpow2_iff (n d : ℕ) (hd : 0 < d) (e : ℤ) :
    (n : ℚ) / d < 2 ^ e ↔ n * 2 ^ (-e).toNat < d * 2 ^ e.toNat := by
  have hdQ : (0 : ℚ) < d := by exact_mod_cast hd
  have hb : (0 : ℚ) < 2 ^ ((-e).toNat) := by positivity
  have key : (2 : ℚ) ^ e * 2 ^ ((-e).toNat) = 2 ^ (e.toNat) := by
    rw [← zpow_natCast (2 : ℚ) (-e).toNat, ← zpow_natCast (2 : ℚ) e.toNat,
      ← zpow_add₀ (two_ne_zero : (2 : ℚ) ≠ 0)]
    congr 1
    omega
  rw [div_lt_iff₀ hdQ]
  constructor
  · intro h
    have h2 := mul_lt_mul_of_pos_right h hb
    rw [mul_right_comm, key] at h2
    have h3 : ((n * 2 ^ (-e).toNat : ℕ) : ℚ) < ((d * 2 ^ e.toNat : ℕ) : ℚ) := by
      push_cast
      linarith
    exact_mod_cast h3
  · intro h
    have h3 : ((n * 2 ^ (-e).toNat : ℕ) : ℚ) < ((d * 2 ^ e.toNat : ℕ) : ℚ) := by
      exact_mod_cast h
    have h2 : (n : ℚ) * 2 ^ ((-e).toNat) < d * 2 ^ (e.toNat) := by
      push_cast at h3
      linarith
    have h4 : (d : ℚ) * 2 ^ (e.toNat) = 2 ^ e * d * 2 ^ ((-e).toNat) := by
      rw [mul_right_comm, key, mul_comm]
    rw [h4] at h2
    exact lt_of_mul_lt_mul_right h2 (le_of_lt hb)

theorem fracLog2_spec (n d : ℕ) (hn : 0 < n) (hd : 0 < d) :
    (2 : ℚ) ^ fracLog2 n d ≤ (n : ℚ) / d ∧ (n : ℚ) / d < 2 ^ (fracLog2 n d + 1) := by
  obtain ⟨hn1, hn2⟩ := flog2_spec n hn
  obtain ⟨hd1, hd2⟩ := flog2_spec d hd
  have hdQ : (0 : ℚ) < d := by exact_mod_cast hd
  have qn1 : (2 : ℚ) ^ ((flog2 n : ℤ)) ≤ n := by
    rw [zpow_natCast]
    exact_mod_cast hn1
  have qn2 : (n : ℚ) < 2 ^ ((flog2 n : ℤ) + 1) := by
    have h : (flog2 n : ℤ) + 1 = ((flog2 n + 1 : ℕ) : ℤ) := by push_cast; ring
    rw [h, zpow_natCast]
    exact_mod_cast hn2
  have qd1 : (2 : ℚ) ^ ((flog2 d : ℤ)) ≤ d := by
    rw [zpow_natCast]
    exact_mod_cast hd1
  have qd2 : (d : ℚ) < 2 ^ ((flog2 d : ℤ) + 1) := by
    have h : (flog2 d : ℤ) + 1 = ((flog2 d + 1 : ℕ) : ℤ) := by push_cast; ring
    rw [h, zpow_natCast]
    exact_mod_cast hd2
  have hub : (n : ℚ) / d < 2 ^ ((flog2 n : ℤ) - (flog2 d : ℤ) + 1) := by
    rw [div_lt_iff₀ hdQ]
    have step : (2 : ℚ) ^ ((flog2 n : ℤ) + 1) =
        2 ^ ((flog2 n : ℤ) - (flog2 d : ℤ) + 1) * 2 ^ ((flog2 d : ℤ)) := by
      rw [← zpow_add₀ (two_ne_zero : (2 : ℚ) ≠ 0)]
      congr 1
      omega
    calc (n : ℚ) < 2 ^ ((flog2 n : ℤ) + 1) := qn2
      _ = 2 ^ ((flog2 n : ℤ) - (flog2 d : ℤ) + 1) * 2 ^ ((flog2 d : ℤ)) := step
      _ ≤ 2 ^ ((flog2 n : ℤ) - (flog2 d : ℤ) + 1) * d := by
          exact mul_le_mul_of_nonneg_left qd1 (by positivity)
  have hlb : (2 : ℚ) ^ ((flog2 n : ℤ) - (flog2 d : ℤ) - 1) ≤ (n : ℚ) / d := by
    rw [le_div_iff₀ hdQ]
    have step1 : (2 : ℚ) ^ ((flog2 n : ℤ) - (flog2 d : ℤ) - 1) * d <
        2 ^ ((flog2 n : ℤ) - (flog2 d : ℤ) - 1) * 2 ^ ((flog2 d : ℤ) + 1) :=
      mul_lt_mul_of_pos_left qd2 (by positivity)
    have step2 : (2 : ℚ) ^ ((flog2 n : ℤ) - (flog2 d : ℤ) - 1) *
        2 ^ ((flog2 d : ℤ) + 1) = 2 ^ ((flog2 n : ℤ)) := by
      rw [← zpow_add₀ (two_ne_zero : (2 : ℚ) ≠ 0)]
      congr 1
      omega
    exact le_of_lt (lt_of_lt_of_le (step2 ▸ step1) qn1)
  simp only [fracLog2]
  by_cases hlt : n * 2 ^ (-((flog2 n : ℤ) - (flog2 d : ℤ))).toNat <
      d * 2 ^ ((flog2 n : ℤ) - (flog2 d : ℤ)).toNat
  · rw [if_pos hlt]
    have hq : (n : ℚ) / d < 2 ^ ((flog2 n : ℤ) - (flog2 d : ℤ)) :=
      (div_lt_zpow2_iff n d hd _).mpr hlt
    constructor
    · simpa using hlb
    · simpa using hq
  · rw [if_neg hlt]
    have hq : ¬((n : ℚ) / d < 2 ^ ((flog2 n : ℤ) - (flog2 d : ℤ))) :=
      fun hcon => hlt ((div_lt_zpow2_iff n d hd _).mp hcon)
    exact ⟨not_lt.mp hq, hub⟩

theorem rneFrac_close (n d : ℕ) (hd : 0 < d) :
    |(rneFrac n d : ℚ) - (n : ℚ) / d| ≤ 1 / 2 := by
  have hdQ : (0 : ℚ) < d := by exact_mod_cast hd
  have hmod : d * (n / d) + n % d = n := Nat.div_add_mod n d
  have hrlt : n % d < d := Nat.mod_lt _ hd
  have hsplit : (n : ℚ) / d = ((n / d : ℕ) : ℚ) + ((n % d : ℕ) : ℚ) / d := by
    have hn : (n : ℚ) = d * ((n / d : ℕ) : ℚ) + ((n % d : ℕ) : ℚ) := by
      exact_mod_cast congrArg (fun x : ℕ => (x : ℚ)) hmod.symm
    field_simp [hn]
    ring
  have hR0 : (0 : ℚ) ≤ ((n % d : ℕ) : ℚ) / d := by positivity
  have hR1 : ((n % d : ℕ) : ℚ) / d < 1 := by
    rw [div_lt_one hdQ]
    exact_mod_cast hrlt
  rw [rneFrac]
  split
  · rename_i hc
    have hc2 : ((n % d : ℕ) : ℚ) / d < 1 / 2 := by
      rw [div_lt_div_iff₀ hdQ (by norm_num : (0 : ℚ) < 2)]
      have hcq : ((2 * (n % d) : ℕ) : ℚ) < ((d : ℕ) : ℚ) := by exact_mod_cast hc
      push_cast at hcq ⊢
      linarith
    rw [abs_le]
    exact ⟨by rw [hsplit]; linarith, by rw [hsplit]; linarith⟩
  · split
    · rename_i hc1 hc2
      have hc3 : 1 / 2 < ((n % d : ℕ) : ℚ) / d := by
        rw [div_lt_div_iff₀ (by norm_num : (0 : ℚ) < 2) hdQ]
        have hcq : ((d : ℕ) : ℚ) < ((2 * (n % d) : ℕ) : ℚ) := by exact_mod_cast hc2
        push_cast at hcq ⊢
        linarith
      rw [abs_le]
      constructor
      · rw [hsplit]; push_cast; linarith
      · rw [hsplit]; push_cast; linarith
    · rename_i hc1 hc2
      have htie : 2 * (n % d) = d := by omega
      have hhalf : ((n % d : ℕ) : ℚ) / d = 1 / 2 := by
        have hdq : ((d : ℕ) : ℚ) = 2 * ((n % d : ℕ) : ℚ) := by exact_mod_cast htie.symm
        have hr0 : (0 : ℚ) < ((n % d : ℕ) : ℚ) := by
          have : 0 < n % d := by omega
          exact_mod_cast this
        rw [hdq, div_eq_iff (by linarith)]
        ring
      split
      · rw [abs_le]
        exact ⟨by rw [hsplit, hhalf]; linarith, by rw [hsplit, hhalf]; linarith⟩
      · rw [abs_le]
        constructor
        · rw [hsplit, hhalf]; push_cast; linarith
        · rw [hsplit, hhalf]; push_cast; linarith

theorem f64_err_core (q : ℚ) (e : ℤ) (m : ℕ)
    (hlo : (2 : ℚ) ^ e ≤ q)
    (hm : |(m : ℚ) - q * 2 ^ ((52 : ℤ) - e)| ≤ 1 / 2) :
    |(m : ℚ) * 2 ^ (e - 52) - q| ≤ q * 2 ^ (-(53 : ℤ)) := by
  have hu : (0 : ℚ) < 2 ^ (e - 52) := by positivity
  have hcancel : q * 2 ^ ((52 : ℤ) - e) * 2 ^ (e - 52) = q := by
    rw [mul_assoc, ← zpow_add₀ (two_ne_zero : (2 : ℚ) ≠ 0)]
    norm_num
  have key : (m : ℚ) * 2 ^ (e - 52) - q =
      ((m : ℚ) - q * 2 ^ ((52 : ℤ) - e)) * 2 ^ (e - 52) := by
    rw [sub_mul, hcancel]
  rw [key, abs_mul, abs_of_pos hu]
  calc |(m : ℚ) - q * 2 ^ ((52 : ℤ) - e)| * 2 ^ (e - 52)
      ≤ (1 / 2) * 2 ^ (e - 52) := mul_le_mul_of_nonneg_right hm (le_of_lt hu)
    _ = 2 ^ (e - 53) := by
        rw [one_div, ← zpow_neg_one, ← zpow_add₀ (two_ne_zero : (2 : ℚ) ≠ 0)]
        congr 1
        omega
    _ = 2 ^ e * 2 ^ (-(53 : ℤ)) := by
        rw [← zpow_add₀ (two_ne_zero : (2 : ℚ) ≠ 0)]
        congr 1
    _ ≤ q * 2 ^ (-(53 : ℤ)) := mul_le_mul_of_nonneg_right hlo (by positivity)

theorem f64Round_err (n d : ℕ) (hn : 0 < n) (hd : 0 < d) :
    |f64Val (f64Round n d) - (n : ℚ) / d| ≤ ((n : ℚ) / d) * 2 ^ (-(53 : ℤ)) := by
  obtain ⟨hlo, hhi⟩ := fracLog2_spec n d hn hd
  have hdQ : (0 : ℚ) < d := by exact_mod_cast hd
  simp only [f64Round, f64Val]
  by_cases he : fracLog2 n d ≤ 52
  · rw [if_pos he]
    have hcast : ((n * 2 ^ (52 - fracLog2 n d).toNat : ℕ) : ℚ) / d =
        ((n : ℚ) / d) * 2 ^ ((52 : ℤ) - fracLog2 n d) := by
      push_cast
      rw [← zpow_natCast (2 : ℚ) (52 - fracLog2 n d).toNat]
      rw [show ((52 - fracLog2 n d).toNat : ℤ) = 52 - fracLog2 n d by omega]
      ring
    have hclose := rneFrac_close (n * 2 ^ (52 - fracLog2 n d).toNat) d hd
    rw [hcast] at hclose
    exact f64_err_core ((n : ℚ) / d) (fracLog2 n d) _ hlo hclose
  · rw [if_neg he]
    have hd2 : 0 < d * 2 ^ (fracLog2 n d - 52).toNat := by positivity
    have hcast : ((n : ℕ) : ℚ) / ((d * 2 ^ (fracLog2 n d - 52).toNat : ℕ) : ℚ) =
        ((n : ℚ) / d) * 2 ^ ((52 : ℤ) - fracLog2 n d) := by
      push_cast
      rw [← zpow_natCast (2 : ℚ) (fracLog2 n d - 52).toNat]
      rw [show ((fracLog2 n d - 52).toNat : ℤ) = fracLog2 n d - 52 by omega]
      rw [← div_div, div_eq_mul_inv ((n : ℚ) / d), ← zpow_neg]
      congr 1
      congr 1
      ring
    have hclose := rneFrac_close n (d * 2 ^ (fracLog2 n d - 52).toNat) hd2
    rw [hcast] at hclose
    exact f64_err_core ((n : ℚ) / d) (fracLog2 n d) _ hlo hclose

theorem f64Val_nonneg (p : ℕ × ℤ) : 0 ≤ f64Val p := by
  rw [f64Val]
  positivity

theorem scalePow2_spec (n2 d2 : ℕ) (hd : 0 < d2) (e : ℤ) :
    0 < (scalePow2 n2 d2 e).2 ∧
    (((scalePow2 n2 d2 e).1 : ℕ) : ℚ) / (((scalePow2 n2 d2 e).2 : ℕ) : ℚ) =
      ((n2 : ℚ) / d2) * 2 ^ e ∧
    (0 < n2 → 0 < (scalePow2 n2 d2 e).1) := by
  rw [scalePow2]
  by_cases he : 0 ≤ e
  · rw [if_pos he]
    refine ⟨hd, ?_, fun h => by positivity⟩
    push_cast
    rw [← zpow_natCast (2 : ℚ) e.toNat, Int.toNat_of_nonneg he]
    ring
  · rw [if_neg he]
    refine ⟨by positivity, ?_, fun h => h⟩
    push_cast
    rw [← zpow_natCast (2 : ℚ) (-e).toNat,
      show ((-e).toNat : ℤ) = -e by omega]
    rw [← div_div, div_eq_mul_inv ((n2 : ℚ) / d2), ← zpow_neg, neg_neg]

theorem floorF64_eq (p : ℕ × ℤ) :
    (if p.2 ≤ 52 then ((p.1 / 2 ^ (52 - p.2).toNat : ℕ) : ℤ)
     else ((p.1 * 2 ^ (p.2 - 52).toNat : ℕ) : ℤ)) = ⌊f64Val p⌋ := by
  rcases p with ⟨m, e⟩
  simp only [f64Val]
  by_cases he : e ≤ 52
  · rw [if_pos he]
    have hcast : (m : ℚ) * 2 ^ ((e : ℤ) - 52) =
        (m : ℚ) / ((2 ^ (52 - e).toNat : ℕ) : ℚ) := by
      push_cast
      rw [← zpow_natCast (2 : ℚ) (52 - e).toNat,
        show ((52 - e).toNat : ℤ) = 52 - e by omega]
      rw [div_eq_mul_inv, ← zpow_neg]
      rw [neg_sub]

    rw [hcast, Rat.floor_natCast_div_natCast]
    omega
  · rw [if_neg he]
    have hcast : (m : ℚ) * 2 ^ ((e : ℤ) - 52) =
        ((m * 2 ^ (e - 52).toNat : ℕ) : ℚ) := by
      push_cast
      rw [← zpow_natCast (2 : ℚ) (e - 52).toNat,
        show ((e - 52).toNat : ℤ) = e - 52 by omega]
    rw [hcast, Int.floor_natCast]

theorem winRatePercent_eq_floor (w l : ℕ) (hw : 0 < w) (hl : w + l ≠ 0) :
    winRatePercent w l =
      ⌊f64Val (f64Round
        (scalePow2 ((f64Round w (w + l)).1 * 100) 1 ((f64Round w (w + l)).2 - 52)).1
        (scalePow2 ((f64Round w (w + l)).1 * 100) 1 ((f64Round w (w + l)).2 - 52)).2)⌋ := by
  rw [winRatePercent, if_neg hl, if_neg (by omega)]
  exact floorF64_eq _

theorem floor_within_one (pv qv qx eps : ℚ)
    (_hq0nonneg : 0 ≤ qx) (hq0le1 : qx ≤ 1)
    (hepspos : 0 < eps) (hepssmall : eps ≤ 1 / 1000)
    (herr1 : |qv - qx| ≤ qx * eps)
    (herr2 : |pv - qv * 100| ≤ qv * 100 * eps) :
    |⌊pv⌋ - ⌊qx * 100⌋| ≤ 1 := by
  have h1 := abs_le.mp herr1
  have h2 := abs_le.mp herr2
  have hqxe : qx * eps ≤ 1 * (1 / 1000) :=
    mul_le_mul hq0le1 hepssmall (le_of_lt hepspos) (by norm_num)
  have hqvle : qv ≤ 2 := by linarith [h1.2]
  have hqve : qv * eps ≤ 2 * (1 / 1000) :=
    mul_le_mul hqvle hepssmall (le_of_lt hepspos) (by norm_num)
  have hup : pv ≤ qx * 100 + 1 := by linarith [h2.2, h1.2]
  have hdown : qx * 100 - 1 ≤ pv := by
    have hqxege : -(qx * eps) ≥ -(1 * (1 / 1000)) := by linarith
    have hqvege : -(qv * 100 * eps) ≥ -(100 * (2 * (1 / 1000))) := by linarith
    linarith [h2.1, h1.1]
  have hfup : ⌊pv⌋ ≤ ⌊qx * 100⌋ + 1 := by
    have ha : ⌊pv⌋ ≤ ⌊qx * 100 + 1⌋ := Int.floor_le_floor hup
    have hb : qx * 100 + 1 = qx * 100 + ((1 : ℤ) : ℚ) := by norm_num
    rw [hb, Int.floor_add_int] at ha
    exact ha
  have hfdown : ⌊qx * 100⌋ - 1 ≤ ⌊pv⌋ := by
    have ha : ⌊qx * 100 - 1⌋ ≤ ⌊pv⌋ := Int.floor_le_floor hdown
    have hb : qx * 100 - 1 = qx * 100 - ((1 : ℤ) : ℚ) := by norm_num
    rw [hb, Int.floor_sub_int] at ha
    exact ha
  rw [abs_le]
  omega

/-- C6 amended: the displayed win-rate is the `f64` evaluation of
`wins / (wins + losses) * 100` truncated toward zero, which is always within
one of the exact integer truncation (and can differ from it, see the
counterexample); for `wins + losses = 0` the `NaN` result casts to `0`, so
`0%` is rendered without a division error. -/
theorem winrate_f64_within_one_of_exact (w l : ℕ) :
    (w + l = 0 → winRatePercent w l = 0)
  ∧ (w + l ≠ 0 → |winRatePercent w l - ⌊(w : ℚ) / ((w : ℚ) + l) * 100⌋| ≤ 1) := by
  constructor
  · intro h
    rw [winRatePercent, if_pos h]
  · intro h
    rcases Nat.eq_zero_or_pos w with hw | hw
    · subst hw
      rw [winRatePercent, if_neg h, if_pos rfl]
      have hz : (Nat.cast 0 : ℚ) / ((Nat.cast 0 : ℚ) + l) * 100 = 0 := by
        norm_num
      rw [hz]
      simp
    · have hdpos : 0 < w + l := by omega
      have hdQ : (0 : ℚ) < (w : ℚ) + l := by
        have hc : ((w + l : ℕ) : ℚ) > 0 := by exact_mod_cast hdpos
        push_cast at hc
        linarith
      have hcastd : ((w + l : ℕ) : ℚ) = (w : ℚ) + l := by push_cast; ring
      have hq0pos : (0 : ℚ) < (w : ℚ) / ((w : ℚ) + l) := by
        have hwQ : (0 : ℚ) < w := by exact_mod_cast hw
        positivity
      have hq0le1 : (w : ℚ) / ((w : ℚ) + l) ≤ 1 := by
        rw [div_le_one hdQ]
        have hc : (0 : ℚ) ≤ l := by positivity
        linarith
      have hεval : (2 : ℚ) ^ (-(53 : ℤ)) = ((2 : ℚ) ^ (53 : ℕ))⁻¹ := by
        rw [← zpow_natCast (2 : ℚ) 53, ← zpow_neg]
        norm_num
      have hεpos : (0 : ℚ) < 2 ^ (-(53 : ℤ)) := by positivity
      have hεsmall : (2 : ℚ) ^ (-(53 : ℤ)) ≤ 1 / 1000 := by
        rw [hεval]
        rw [inv_le_comm₀ (by positivity) (by norm_num)]
        norm_num
      -- first rounding
      have herr1 := f64Round_err w (w + l) hw hdpos
      rw [hcastd] at herr1
      have herr1a := abs_le.mp herr1
      have hqvpos : 0 < f64Val (f64Round w (w + l)) := by
        have hlow : (w : ℚ) / ((w : ℚ) + l) * (1 - 2 ^ (-(53 : ℤ))) ≤
            f64Val (f64Round w (w + l)) := by nlinarith [herr1a.1]
        nlinarith
      have hm1pos : 0 < (f64Round w (w + l)).1 := by
        rcases Nat.eq_zero_or_pos (f64Round w (w + l)).1 with h0 | h1
        · exfalso
          have hzz : f64Val (f64Round w (w + l)) = 0 := by
            rw [f64Val, h0]
            simp
          rw [hzz] at hqvpos
          exact lt_irrefl 0 hqvpos
        · exact h1
      -- the scaled fraction represents the first result times 100
      obtain ⟨hpf2, hpfval, hpf1⟩ :=
        scalePow2_spec ((f64Round w (w + l)).1 * 100) 1 (by norm_num)
          ((f64Round w (w + l)).2 - 52)
      have hpf1pos : 0 < (scalePow2 ((f64Round w (w + l)).1 * 100) 1
          ((f64Round w (w + l)).2 - 52)).1 := hpf1 (by positivity)
      have hpfval2 : ((scalePow2 ((f64Round w (w + l)).1 * 100) 1
            ((f64Round w (w + l)).2 - 52)).1 : ℚ) /
          ((scalePow2 ((f64Round w (w + l)).1 * 100) 1
            ((f64Round w (w + l)).2 - 52)).2 : ℚ) =
          f64Val (f64Round w (w + l)) * 100 := by
        rw [hpfval, f64Val]
        push_cast
        ring
      -- second rounding
      have herr2 := f64Round_err _ _ hpf1pos hpf2
      rw [hpfval2] at herr2
      -- final floor and numeric assembly
      rw [winRatePercent_eq_floor w l hw h]
      exact floor_within_one _ _ _ _ (le_of_lt hq0pos) hq0le1 hεpos hεsmall
        herr1 herr2

/-- C6 counterexample: an entry with 29 wins and 71 losses displays 28%,
while the exact truncation of wins / (wins + losses) * 100 is 29: the `f64`
product `0.29 * 100.0` is `28.999999999999996`, and the `as i64` cast
truncates it to 28. -/
theorem winrate_29_71_display_differs_from_exact :
    winRatePercent 29 71 = 28 ∧ ⌊(29 : ℚ) / ((29 : ℚ) + 71) * 100⌋ = 29 := by
  constructor
  · decide
  · norm_num

/-- Witness for the win-rate theorem: the 0W/0L entry renders 0, and the
1W/2L entry is within one of the exact 33. -/
theorem winrate_f64_within_one_of_exact_witness :
    winRatePercent 0 0 = 0
  ∧ |winRatePercent 1 2 - ⌊(1 : ℚ) / ((1 : ℚ) + 2) * 100⌋| ≤ 1 :=
  ⟨(winrate_f64_within_one_of_exact 0 0).1 rfl,
   (winrate_f64_within_one_of_exact 1 2).2 (by decide)⟩
